import Mathlib

/-!
Verification of the duty-planner schedule generator (`generate_schedule_for_date`
in `app.py`) against its specification.  The data model (`models.py`) and the
generator are shallowly embedded below: dates are triples of naturals, the
store is a record of lists, and the `YYYY-MM-DD` parse models
`datetime.strptime(s, "%Y-%m-%d")`.
-/

namespace DutyPlanner

/-- A calendar date, as produced by `datetime.strptime(s, "%Y-%m-%d").date()`. -/
structure Date where
  year : Nat
  month : Nat
  day : Nat
deriving DecidableEq

/-- `models.Soldier`. -/
structure Soldier where
  id : Nat
  name : String
  rank : String
  role : String
  total_services : Nat
  is_available : Bool
deriving DecidableEq

/-- `models.Assignment`. -/
structure Assignment where
  id : Nat
  soldier_id : Nat
  date : Date
  shift_type : String
  confirmed : Bool
deriving DecidableEq

/-- `models.Unavailability`. -/
structure Unavailability where
  id : Nat
  soldier_id : Nat
  date : Date
  reason : String
deriving DecidableEq

/-- The persistent store: the three tables plus the autoincrement counter
supplying primary keys for new assignment rows. -/
structure DB where
  soldiers : List Soldier
  assignments : List Assignment
  unavailabilities : List Unavailability
  next_assignment_id : Nat
deriving DecidableEq

/-- Gregorian leap-year rule used by `datetime.date`. -/
def isLeap (y : Nat) : Bool := y % 4 == 0 && (y % 100 != 0 || y % 400 == 0)

def daysInMonth (y m : Nat) : Nat :=
  if m = 2 then (if isLeap y then 29 else 28)
  else if m = 4 ∨ m = 6 ∨ m = 9 ∨ m = 11 then 30
  else 31

def validDate (y m d : Nat) : Bool :=
  decide (1 ≤ y ∧ y ≤ 9999 ∧ 1 ≤ m ∧ m ≤ 12 ∧ 1 ≤ d ∧ d ≤ daysInMonth y m)

/-- Split a character list at every dash, like Python `s.split("-")`. -/
def splitDash : List Char → List (List Char)
  | [] => [[]]
  | c :: rest =>
    let r := splitDash rest
    if c = '-' then [] :: r
    else
      match r with
      | [] => [[c]]
      | h :: t => (c :: h) :: t

def digitsToNat (l : List Char) : Nat := l.foldl (fun a c => a * 10 + (c.toNat - 48)) 0

def allDigits (l : List Char) : Bool := l.all (fun c => c.isDigit)

/-- Model of `datetime.strptime(s, "%Y-%m-%d").date()` (`app.py` line 70):
three dash-separated digit groups — exactly four digits for `%Y` (CPython's
`_strptime` year pattern), one or two digits for `%m` and `%d` — forming a
valid proleptic-Gregorian date; `none` models the `ValueError` branch. -/
def parseDate (s : String) : Option Date :=
  match splitDash s.toList with
  | [ys, ms, ds] =>
    if allDigits ys = true ∧ ys.length = 4 ∧
       allDigits ms = true ∧ 1 ≤ ms.length ∧ ms.length ≤ 2 ∧
       allDigits ds = true ∧ 1 ≤ ds.length ∧ ds.length ≤ 2 then
      if validDate (digitsToNat ys) (digitsToNat ms) (digitsToNat ds) = true then
        some ⟨digitsToNat ys, digitsToNat ms, digitsToNat ds⟩
      else none
    else none
  | _ => none

/-- The fixed required duty slots (`app.py` lines 76-82). -/
def slots : List String :=
  ["Σκοπιά 00:00-02:00", "Σκοπιά 02:00-04:00", "Σκοπιά 04:00-06:00",
   "Θαλαμοφύλακας Ημέρας", "Κουζίνα Πρωί"]

/-- The fixed role keywords (`app.py` line 118). -/
def role_keywords : List String := ["Σκοπιά", "Θαλαμοφύλακας", "Κουζίνα"]

/-- `startsWithChars pat l` is true when `pat` is an initial segment of `l`. -/
def startsWithChars : List Char → List Char → Bool
  | [], _ => true
  | _ :: _, [] => false
  | a :: as, b :: bs => a == b && startsWithChars as bs

/-- `containsSub l pat`: `pat` occurs contiguously inside `l`; models Python
`pat in l` on strings. -/
def containsSub : List Char → List Char → Bool
  | [], pat => pat.isEmpty
  | a :: rest, pat => startsWithChars pat (a :: rest) || containsSub rest pat

def strContains (s pat : String) : Bool := containsSub s.toList pat.toList

/-- The keyword loop of `app.py` lines 118-131: only the first keyword found
in the shift label is checked against the soldier's role (the loop breaks). -/
def roleOk (shift_type role : String) : Bool :=
  match role_keywords.find? (fun k => strContains shift_type k) with
  | none => true
  | some k => strContains role k

/-- In-memory state of the slot-filling loop (`app.py` lines 100-153). -/
structure FillState where
  soldiers : List Soldier
  already_assigned_today : List Nat
  newAssignments : List Assignment
  nextId : Nat

/-- Candidate pool for one slot (`app.py` lines 105-133). -/
def candidatesFor (soldiers : List Soldier) (unavail used : List Nat)
    (shift_type : String) : List Soldier :=
  soldiers.filter (fun s =>
    s.is_available && !(unavail.contains s.id) && !(used.contains s.id) &&
      roleOk shift_type s.role)

/-- Strict comparison on the Python sort key `(s.total_services, s.id)`. -/
def keyLt (c b : Soldier) : Bool :=
  decide (c.total_services < b.total_services) ||
    (decide (c.total_services = b.total_services) && decide (c.id < b.id))

/-- `min(candidates, key=lambda s: (s.total_services, s.id))`: the first
element attaining the lexicographically least key. -/
def pickMin : List Soldier → Option Soldier
  | [] => none
  | s :: rest => some (rest.foldl (fun b c => if keyLt c b then c else b) s)

/-- One iteration of the slot loop (`app.py` lines 104-153). -/
def fillSlot (unavail : List Nat) (d : Date) (st : FillState) (sh : String) : FillState :=
  match pickMin (candidatesFor st.soldiers unavail st.already_assigned_today sh) with
  | none => st
  | some best =>
    { soldiers := st.soldiers.map (fun s =>
        if s.id == best.id then { s with total_services := s.total_services + 1 } else s)
      already_assigned_today := st.already_assigned_today ++ [best.id]
      newAssignments := st.newAssignments ++
        [{ id := st.nextId, soldier_id := best.id, date := d, shift_type := sh,
           confirmed := false }]
      nextId := st.nextId + 1 }

def runSlots (unavail : List Nat) (d : Date) : FillState → List String → FillState
  | st, [] => st
  | st, sh :: rest => runSlots unavail d (fillSlot unavail d st sh) rest

/-- `app.py` lines 92-95. -/
def unavailable_soldier_ids (db : DB) (d : Date) : List Nat :=
  (db.unavailabilities.filter (fun u => u.date == d)).map (fun u => u.soldier_id)

def initState (db : DB) : FillState :=
  { soldiers := db.soldiers, already_assigned_today := [], newAssignments := [],
    nextId := db.next_assignment_id }

def runResult (db : DB) (d : Date) : FillState :=
  runSlots (unavailable_soldier_ids db d) d (initState db) slots

/-- `generate_schedule_for_date` (`app.py` lines 48-156): returns the success
flag together with the store after the run.  Deleting the date's assignment
rows is embedded as filtering them out of the assignment table. -/
def generate_schedule_for_date (db : DB) (target_date_str : String) : Bool × DB :=
  match parseDate target_date_str with
  | none => (false, db)
  | some d =>
    let fin := runResult db d
    (true,
      { soldiers := fin.soldiers
        assignments := db.assignments.filter (fun a => !(a.date == d)) ++ fin.newAssignments
        unavailabilities := db.unavailabilities
        next_assignment_id := fin.nextId })

/-- One persistence operation issued to the store during a run. -/
inductive Op where
  | delAssign (id : Nat)
  | addAssign (a : Assignment)
  | setServices (soldier_id : Nat) (value : Nat)
  | commit
deriving DecidableEq

def applyOp (store : DB) : Op → DB
  | .delAssign i =>
      { store with assignments := store.assignments.filter (fun a => !(a.id == i)) }
  | .addAssign a => { store with assignments := store.assignments ++ [a] }
  | .setServices sid v =>
      { store with soldiers := store.soldiers.map (fun s =>
          if s.id == sid then { s with total_services := v } else s) }
  | .commit => store

/-- Persistence operations issued by the slot loop, in order. -/
def fillOps (unavail : List Nat) (d : Date) : FillState → List String → List Op
  | _, [] => []
  | st, sh :: rest =>
    match pickMin (candidatesFor st.soldiers unavail st.already_assigned_today sh) with
    | none => fillOps unavail d (fillSlot unavail d st sh) rest
    | some best =>
      Op.addAssign { id := st.nextId, soldier_id := best.id, date := d,
                     shift_type := sh, confirmed := false } ::
      Op.setServices best.id (best.total_services + 1) ::
      fillOps unavail d (fillSlot unavail d st sh) rest

/-- The full persistence trace of one run: the early deletion commit of
`app.py` line 90 (issued only when prior assignments for the date exist), the
slot-loop writes, and the final commit of line 155. -/
def generateOps (db : DB) (target_date_str : String) : List Op :=
  match parseDate target_date_str with
  | none => []
  | some d =>
    (if (db.assignments.filter (fun a => a.date == d)).isEmpty then []
     else (db.assignments.filter (fun a => a.date == d)).map (fun a => Op.delAssign a.id)
          ++ [Op.commit]) ++
    fillOps (unavailable_soldier_ids db d) d (initState db) slots ++ [Op.commit]

/-- Session semantics: operations are staged and applied to the store only at
a commit; a run that stops early loses the staged, uncommitted operations. -/
def opStep : DB × List Op → Op → DB × List Op
  | (store, staged), .commit => (staged.foldl applyOp store, [])
  | (store, staged), op => (store, staged ++ [op])

def runSession (init : DB) (ops : List Op) : DB := (ops.foldl opStep (init, [])).1

/-- The store contents when the run dies after its first `k` persistence
operations: staged operations are rolled back, committed ones persist. -/
def runFailAfter (db : DB) (target_date_str : String) (k : Nat) : DB :=
  runSession db ((generateOps db target_date_str).take k)

/-- The store with only the target date's prior assignments deleted. -/
def deleteApplied (db : DB) (target_date_str : String) : DB :=
  match parseDate target_date_str with
  | none => db
  | some d => { db with assignments := db.assignments.filter (fun a => !(a.date == d)) }

/-- The candidate pool the run examines when it reaches a given slot label
(at the label's first occurrence in the slot list). -/
def poolAtSlot (unavail : List Nat) (d : Date) :
    FillState → List String → String → List Soldier
  | _, [], _ => []
  | st, sh :: rest, target =>
    if sh = target then candidatesFor st.soldiers unavail st.already_assigned_today sh
    else poolAtSlot unavail d (fillSlot unavail d st sh) rest target

/-! ### Comparison-key lemmas -/

theorem keyLt_iff (c b : Soldier) : keyLt c b = true ↔
    (c.total_services < b.total_services ∨
      (c.total_services = b.total_services ∧ c.id < b.id)) := by
  simp [keyLt]

theorem keyLt_false_iff (c b : Soldier) : keyLt c b = false ↔
    ¬(c.total_services < b.total_services ∨
      (c.total_services = b.total_services ∧ c.id < b.id)) := by
  rw [← Bool.not_eq_true, keyLt_iff]

theorem keyLt_trans {a b c : Soldier} (h1 : keyLt a b = true) (h2 : keyLt b c = true) :
    keyLt a c = true := by
  rw [keyLt_iff] at h1 h2 ⊢
  omega

theorem keyLt_le_trans {a b c : Soldier} (h1 : keyLt a b = false) (h2 : keyLt a c = true) :
    keyLt b c = true := by
  rw [keyLt_false_iff] at h1
  rw [keyLt_iff] at h2 ⊢
  omega

theorem keyLt_connex {a b : Soldier} (h1 : keyLt a b = false) (h2 : keyLt b a = false) :
    a.total_services = b.total_services ∧ a.id = b.id := by
  rw [keyLt_false_iff] at h1 h2
  omega

/-! ### `pickMin` lemmas -/

theorem foldl_min_mem (t : List Soldier) : ∀ (b : Soldier),
    List.foldl (fun x c => if keyLt c x then c else x) b t ∈ b :: t := by
  induction t with
  | nil => intro b; simp
  | cons c t ih =>
    intro b
    rw [List.foldl_cons]
    have h2 := ih (if keyLt c b then c else b)
    rcases List.mem_cons.mp h2 with h3 | h3
    · rw [h3]
      by_cases h : keyLt c b = true <;> simp [h]
    · simp [List.mem_cons.mpr (Or.inr (List.mem_cons.mpr (Or.inr h3)))]

theorem foldl_min_not_lt (t : List Soldier) : ∀ (b x : Soldier), x ∈ b :: t →
    keyLt x (List.foldl (fun x c => if keyLt c x then c else x) b t) = false := by
  induction t with
  | nil =>
    intro b x hx
    rcases List.mem_cons.mp hx with rfl | h
    · rw [List.foldl_nil, keyLt_false_iff]; omega
    · cases h
  | cons c t ih =>
    intro b x hx
    rw [List.foldl_cons]
    cases hcb : keyLt c b with
    | true =>
      rw [if_pos rfl]
      rcases List.mem_cons.mp hx with hxb | hx2
      · have hc := ih c c (List.mem_cons_self c t)
        by_contra hb
        rw [Bool.not_eq_false, hxb] at hb
        rw [keyLt_trans hcb hb] at hc
        exact Bool.noConfusion hc
      · rcases List.mem_cons.mp hx2 with hxc | hxt
        · rw [hxc]
          exact ih c c (List.mem_cons_self c t)
        · exact ih c x (List.mem_cons_of_mem _ hxt)
    | false =>
      have hn : ¬ (false = true) := by simp
      rw [if_neg hn]
      rcases List.mem_cons.mp hx with hxb | hx2
      · rw [hxb]
        exact ih b b (List.mem_cons_self b t)
      · rcases List.mem_cons.mp hx2 with hxc | hxt
        · have hbr := ih b b (List.mem_cons_self b t)
          by_contra hc2
          rw [Bool.not_eq_false, hxc] at hc2
          rw [keyLt_le_trans hcb hc2] at hbr
          exact Bool.noConfusion hbr
        · exact ih b x (List.mem_cons_of_mem _ hxt)

theorem pickMin_eq_none_iff (l : List Soldier) : pickMin l = none ↔ l = [] := by
  cases l <;> simp [pickMin]

theorem pickMin_mem {l : List Soldier} {b : Soldier} (h : pickMin l = some b) : b ∈ l := by
  cases l with
  | nil => cases h
  | cons s t =>
    simp only [pickMin, Option.some.injEq] at h
    rw [← h]
    exact foldl_min_mem t s

theorem pickMin_not_lt {l : List Soldier} {b : Soldier} (h : pickMin l = some b) :
    ∀ x ∈ l, keyLt x b = false := by
  cases l with
  | nil => cases h
  | cons s t =>
    simp only [pickMin, Option.some.injEq] at h
    intro x hx
    rw [← h]
    exact foldl_min_not_lt t s x hx

theorem pickMin_eq_of_mem_min {l : List Soldier} (hnd : (l.map (fun s => s.id)).Nodup)
    {b : Soldier} (hb : b ∈ l) (hmin : ∀ x ∈ l, keyLt x b = false) :
    pickMin l = some b := by
  cases hm : pickMin l with
  | none =>
    rw [pickMin_eq_none_iff] at hm
    subst hm
    cases hb
  | some m =>
    have hmem := pickMin_mem hm
    have h1 : keyLt m b = false := hmin m hmem
    have h2 : keyLt b m = false := pickMin_not_lt hm b hb
    have hid : m.id = b.id := (keyLt_connex h1 h2).2
    have : m = b := List.inj_on_of_nodup_map hnd hmem hb hid
    rw [this]

theorem pickMin_perm {l l2 : List Soldier} (hp : l.Perm l2)
    (hnd : (l.map (fun s => s.id)).Nodup) : pickMin l = pickMin l2 := by
  cases hm : pickMin l with
  | none =>
    rw [pickMin_eq_none_iff] at hm
    subst hm
    rw [hp.symm.eq_nil]
    rfl
  | some m =>
    have hnd2 : (l2.map (fun s => s.id)).Nodup := ((hp.map _).nodup_iff).mp hnd
    have hmem : m ∈ l2 := hp.mem_iff.mp (pickMin_mem hm)
    have hmin : ∀ x ∈ l2, keyLt x m = false := fun x hx =>
      pickMin_not_lt hm x (hp.mem_iff.mpr hx)
    exact (pickMin_eq_of_mem_min hnd2 hmem hmin).symm

/-! ### Small equation lemmas -/

theorem runSlots_cons (u : List Nat) (d : Date) (st : FillState) (sh : String)
    (rest : List String) :
    runSlots u d st (sh :: rest) = runSlots u d (fillSlot u d st sh) rest := rfl

theorem fillSlot_of_none {u : List Nat} {d : Date} {st : FillState} {sh : String}
    (h : pickMin (candidatesFor st.soldiers u st.already_assigned_today sh) = none) :
    fillSlot u d st sh = st := by
  unfold fillSlot
  rw [h]

theorem fillSlot_of_some {u : List Nat} {d : Date} {st : FillState} {sh : String}
    {best : Soldier}
    (h : pickMin (candidatesFor st.soldiers u st.already_assigned_today sh) = some best) :
    fillSlot u d st sh =
      { soldiers := st.soldiers.map (fun s =>
          if s.id == best.id then { s with total_services := s.total_services + 1 } else s)
        already_assigned_today := st.already_assigned_today ++ [best.id]
        newAssignments := st.newAssignments ++
          [{ id := st.nextId, soldier_id := best.id, date := d, shift_type := sh,
             confirmed := false }]
        nextId := st.nextId + 1 } := by
  unfold fillSlot
  rw [h]

theorem poolAtSlot_cons (u : List Nat) (d : Date) (st : FillState) (sh : String)
    (rest : List String) (target : String) :
    poolAtSlot u d st (sh :: rest) target =
      if sh = target then candidatesFor st.soldiers u st.already_assigned_today sh
      else poolAtSlot u d (fillSlot u d st sh) rest target := rfl

theorem mem_candidatesFor {soldiers : List Soldier} {unavail used : List Nat}
    {sh : String} {s : Soldier} :
    s ∈ candidatesFor soldiers unavail used sh ↔
      s ∈ soldiers ∧ s.is_available = true ∧ s.id ∉ unavail ∧ s.id ∉ used ∧
        roleOk sh s.role = true := by
  simp only [candidatesFor, List.mem_filter, Bool.and_eq_true, Bool.not_eq_true',
    List.elem_eq_mem, decide_eq_false_iff_not, and_assoc]

/-! ### `List.Forall₂` helpers -/

theorem forall2_mem_right {α β : Type} {R : α → β → Prop} {l1 : List α} {l2 : List β}
    (h : List.Forall₂ R l1 l2) {b : β} (hb : b ∈ l2) : ∃ a ∈ l1, R a b := by
  induction h with
  | nil => cases hb
  | cons hr _ ih =>
    rcases List.mem_cons.mp hb with rfl | hb2
    · exact ⟨_, List.mem_cons_self _ _, hr⟩
    · obtain ⟨a, ha, har⟩ := ih hb2
      exact ⟨a, List.mem_cons_of_mem _ ha, har⟩

theorem forall2_map_right {α β γ : Type} {R : α → β → Prop} {S : α → γ → Prop}
    (f : β → γ) {l1 : List α} {l2 : List β} (h : List.Forall₂ R l1 l2)
    (hf : ∀ a b, R a b → S a (f b)) : List.Forall₂ S l1 (l2.map f) := by
  induction h with
  | nil => exact List.Forall₂.nil
  | cons hr _ ih => exact List.Forall₂.cons (hf _ _ hr) ih

/-! ### The loop invariant -/

/-- Relation between a soldier row as the run started and the same row in the
loop's in-memory roster: every field but `total_services` is untouched, and
`total_services` is one more than before exactly when the soldier was chosen
for an earlier slot. -/
def tracks (used : List Nat) (s0 s1 : Soldier) : Prop :=
  s1.id = s0.id ∧ s1.name = s0.name ∧ s1.rank = s0.rank ∧ s1.role = s0.role ∧
  s1.is_available = s0.is_available ∧
  s1.total_services = (if s0.id ∈ used then s0.total_services + 1 else s0.total_services)

theorem frame_ids_eq {used : List Nat} {l1 l2 : List Soldier}
    (h : List.Forall₂ (tracks used) l1 l2) :
    l2.map (fun s => s.id) = l1.map (fun s => s.id) := by
  induction h with
  | nil => rfl
  | cons hr _ ih => simp [hr.1, ih]

/-- Invariant of the slot loop, relative to the starting store `db` and the
target date `d`. -/
structure Inv (db : DB) (d : Date) (st : FillState) : Prop where
  frame : List.Forall₂ (tracks st.already_assigned_today) db.soldiers st.soldiers
  usedNodup : st.already_assigned_today.Nodup
  usedEq : st.newAssignments.map (fun a => a.soldier_id) = st.already_assigned_today
  usedSub : ∀ u ∈ st.already_assigned_today, u ∈ db.soldiers.map (fun s => s.id)
  dates : ∀ a ∈ st.newAssignments, a.date = d
  availEx : ∀ a ∈ st.newAssignments,
    ∃ sol ∈ db.soldiers, sol.id = a.soldier_id ∧ sol.is_available = true
  unavailOk : ∀ a ∈ st.newAssignments, a.soldier_id ∉ unavailable_soldier_ids db d
  confirmedFalse : ∀ a ∈ st.newAssignments, a.confirmed = false
  idsGe : ∀ a ∈ st.newAssignments, db.next_assignment_id ≤ a.id
  idsLt : ∀ a ∈ st.newAssignments, a.id < st.nextId
  nextGe : db.next_assignment_id ≤ st.nextId

theorem tracks_refl (s : Soldier) : tracks [] s s :=
  ⟨rfl, rfl, rfl, rfl, rfl, by simp⟩

theorem inv_init (db : DB) (d : Date) : Inv db d (initState db) := by
  refine ⟨?_, List.nodup_nil, rfl, ?_, ?_, ?_, ?_, ?_, ?_, ?_, Nat.le_refl _⟩
  · exact List.forall₂_same.mpr (fun s _ => tracks_refl s)
  all_goals intro a ha
  all_goals simp [initState] at ha

theorem inv_fillSlot {db : DB} {d : Date} {st : FillState} (sh : String)
    (h : Inv db d st) : Inv db d (fillSlot (unavailable_soldier_ids db d) d st sh) := by
  cases hpick : pickMin (candidatesFor st.soldiers (unavailable_soldier_ids db d)
      st.already_assigned_today sh) with
  | none =>
    rw [fillSlot_of_none hpick]
    exact h
  | some best =>
    have hbest := mem_candidatesFor.mp (pickMin_mem hpick)
    obtain ⟨hmem, havail, hunav, hused, hrole⟩ := hbest
    rw [fillSlot_of_some hpick]
    refine ⟨?_, ?_, ?_, ?_, ?_, ?_, ?_, ?_, ?_, ?_, ?_⟩
    · refine forall2_map_right _ h.frame ?_
      rintro s0 s1 ⟨hid, hname, hrank, hrole2, hav, hserv⟩
      by_cases hc : s1.id = best.id
      · have hbeq : (s1.id == best.id) = true := by simp [hc]
        rw [if_pos hbeq]
        refine ⟨hid, hname, hrank, hrole2, hav, ?_⟩
        have hs0 : s0.id = best.id := by rw [← hid, hc]
        have hnotused : s0.id ∉ st.already_assigned_today := by rw [hs0]; exact hused
        have hin : s0.id ∈ st.already_assigned_today ++ [best.id] := by
          simp [List.mem_append, hs0]
        rw [if_pos hin]
        rw [if_neg hnotused] at hserv
        show s1.total_services + 1 = s0.total_services + 1
        rw [hserv]
      · have hbeq : ¬ ((s1.id == best.id) = true) := by simp [hc]
        rw [if_neg hbeq]
        refine ⟨hid, hname, hrank, hrole2, hav, ?_⟩
        have hs0 : s0.id ≠ best.id := by rw [← hid]; exact hc
        have hiff : (s0.id ∈ st.already_assigned_today ++ [best.id]) ↔
            s0.id ∈ st.already_assigned_today := by
          simp [List.mem_append, hs0]
        rw [if_congr hiff rfl rfl]
        exact hserv
    · refine List.Nodup.append h.usedNodup (List.nodup_singleton _) ?_
      simp [List.disjoint_singleton, hused]
    · simp [h.usedEq]
    · intro u hu
      rcases List.mem_append.mp hu with h1 | h1
      · exact h.usedSub u h1
      · rw [List.mem_singleton] at h1
        subst h1
        rw [← frame_ids_eq h.frame]
        exact List.mem_map.mpr ⟨best, hmem, rfl⟩
    · intro a ha
      rcases List.mem_append.mp ha with h1 | h1
      · exact h.dates a h1
      · rw [List.mem_singleton] at h1
        subst h1
        rfl
    · intro a ha
      rcases List.mem_append.mp ha with h1 | h1
      · exact h.availEx a h1
      · rw [List.mem_singleton] at h1
        subst h1
        obtain ⟨s0, hs0, htr⟩ := forall2_mem_right h.frame hmem
        exact ⟨s0, hs0, htr.1.symm, by rw [← htr.2.2.2.2.1]; exact havail⟩
    · intro a ha
      rcases List.mem_append.mp ha with h1 | h1
      · exact h.unavailOk a h1
      · rw [List.mem_singleton] at h1
        subst h1
        exact hunav
    · intro a ha
      rcases List.mem_append.mp ha with h1 | h1
      · exact h.confirmedFalse a h1
      · rw [List.mem_singleton] at h1
        subst h1
        rfl
    · intro a ha
      rcases List.mem_append.mp ha with h1 | h1
      · exact h.idsGe a h1
      · rw [List.mem_singleton] at h1
        subst h1
        exact h.nextGe
    · intro a ha
      rcases List.mem_append.mp ha with h1 | h1
      · exact Nat.lt_succ_of_lt (h.idsLt a h1)
      · rw [List.mem_singleton] at h1
        subst h1
        exact Nat.lt_succ_self _
    · exact Nat.le_succ_of_le h.nextGe

theorem inv_runSlots {db : DB} {d : Date} (shifts : List String) {st : FillState}
    (h : Inv db d st) : Inv db d (runSlots (unavailable_soldier_ids db d) d st shifts) := by
  induction shifts generalizing st with
  | nil => exact h
  | cons sh rest ih => exact ih (inv_fillSlot sh h)

theorem inv_runResult (db : DB) (d : Date) : Inv db d (runResult db d) :=
  inv_runSlots slots (inv_init db d)

/-! ### Shape of the loop's assignment output -/

/-- The assignment row created for slot `sh` with primary key `n`. -/
def mkAssign (n sid : Nat) (d : Date) (sh : String) : Assignment :=
  { id := n, soldier_id := sid, date := d, shift_type := sh, confirmed := false }

theorem runSlots_newAssignments (u : List Nat) (d : Date) (shifts : List String) :
    ∀ st : FillState, ∃ t : List Assignment,
      (runSlots u d st shifts).newAssignments = st.newAssignments ++ t ∧
        (t.map (fun a => a.shift_type)).Sublist shifts := by
  induction shifts with
  | nil => exact fun st => ⟨[], by simp [runSlots], List.nil_sublist _⟩
  | cons sh rest ih =>
    intro st
    rw [runSlots_cons]
    cases hpick : pickMin (candidatesFor st.soldiers u st.already_assigned_today sh) with
    | none =>
      obtain ⟨t, ht, hsub⟩ := ih st
      rw [fillSlot_of_none hpick]
      exact ⟨t, ht, hsub.cons _⟩
    | some best =>
      obtain ⟨t, ht, hsub⟩ := ih (fillSlot u d st sh)
      refine ⟨mkAssign st.nextId best.id d sh :: t, ?_, ?_⟩
      · rw [ht, fillSlot_of_some hpick]
        simp [mkAssign]
      · exact hsub.cons₂ sh

theorem runSlots_mono (u : List Nat) (d : Date) (shifts : List String) (st : FillState)
    {a : Assignment} (ha : a ∈ st.newAssignments) :
    a ∈ (runSlots u d st shifts).newAssignments := by
  obtain ⟨t, ht, _⟩ := runSlots_newAssignments u d shifts st
  rw [ht]
  exact List.mem_append_left _ ha

/-- A slot whose candidate pool was nonempty when the loop reached it ends up
covered by one of the loop's new assignments. -/
theorem poolAtSlot_filled (u : List Nat) (d : Date) (shifts : List String) :
    ∀ st : FillState, ∀ target ∈ shifts,
      poolAtSlot u d st shifts target ≠ [] →
      ∃ a ∈ (runSlots u d st shifts).newAssignments,
        a.shift_type = target ∧ a.date = d := by
  induction shifts with
  | nil => exact fun st target h => absurd h (List.not_mem_nil _)
  | cons sh rest ih =>
    intro st target hmem hpool
    rw [poolAtSlot_cons] at hpool
    rw [runSlots_cons]
    by_cases heq : sh = target
    · rw [if_pos heq] at hpool
      cases hpick : pickMin (candidatesFor st.soldiers u st.already_assigned_today sh) with
      | none =>
        rw [pickMin_eq_none_iff] at hpick
        exact absurd hpick hpool
      | some best =>
        refine ⟨mkAssign st.nextId best.id d sh, ?_, heq, rfl⟩
        apply runSlots_mono
        rw [fillSlot_of_some hpick]
        simp [mkAssign]
    · rw [if_neg heq] at hpool
      have hmem2 : target ∈ rest := by
        rcases List.mem_cons.mp hmem with h1 | h1
        · exact absurd h1.symm heq
        · exact h1
      exact ih (fillSlot u d st sh) target hmem2 hpool

/-! ### Shape of the generator's result -/

theorem generate_some {db : DB} {str : String} {d : Date} (h : parseDate str = some d) :
    generate_schedule_for_date db str =
      (true,
        { soldiers := (runResult db d).soldiers
          assignments := db.assignments.filter (fun a => !(a.date == d)) ++
            (runResult db d).newAssignments
          unavailabilities := db.unavailabilities
          next_assignment_id := (runResult db d).nextId }) := by
  unfold generate_schedule_for_date
  rw [h]

theorem generate_none {db : DB} {str : String} (h : parseDate str = none) :
    generate_schedule_for_date db str = (false, db) := by
  unfold generate_schedule_for_date
  rw [h]

/-- The target date's rows in the resulting assignment table are exactly the
loop's new assignments. -/
theorem date_filter_append (db : DB) (d : Date) :
    ((db.assignments.filter (fun a => !(a.date == d)) ++
      (runResult db d).newAssignments).filter (fun a => a.date == d)) =
      (runResult db d).newAssignments := by
  rw [List.filter_append]
  have h1 : (db.assignments.filter (fun a => !(a.date == d))).filter
      (fun a => a.date == d) = [] := by
    rw [List.filter_filter]
    rw [List.filter_eq_nil_iff]
    intro a _
    simp
  have h2 : (runResult db d).newAssignments.filter (fun a => a.date == d) =
      (runResult db d).newAssignments := by
    rw [List.filter_eq_self]
    intro a ha
    have := (inv_runResult db d).dates a ha
    simp [this]
  rw [h1, h2]
  rfl

theorem result_date_filter {db : DB} {str : String} {d : Date}
    (h : parseDate str = some d) :
    ((generate_schedule_for_date db str).2.assignments.filter (fun a => a.date == d)) =
      (runResult db d).newAssignments := by
  rw [generate_some h]
  exact date_filter_append db d

/-- Any row of the resulting store dated `d` is one of the loop's new
assignments. -/
theorem result_mem_new {db : DB} {str : String} {d : Date}
    (h : parseDate str = some d) {a : Assignment}
    (ha : a ∈ (generate_schedule_for_date db str).2.assignments) (hd : a.date = d) :
    a ∈ (runResult db d).newAssignments := by
  rw [generate_some h] at ha
  rcases List.mem_append.mp ha with h1 | h1
  · have := List.mem_filter.mp h1
    rw [hd] at this
    simp at this
  · exact h1

theorem roleOk_keyword (L K : String)
    (hfind : role_keywords.find? (fun k => strContains L k) = some K) (role : String) :
    roleOk L role = strContains role K := by
  unfold roleOk
  rw [hfind]

/-! ### Concrete stores used by witnesses -/

def wSoldierA : Soldier := ⟨1, "A", "Στρατιώτης", "Σκοπιά", 3, true⟩

def wSoldierB : Soldier := ⟨2, "B", "Στρατιώτης", "Σκοπιά", 1, true⟩

def wSoldierC : Soldier := ⟨3, "C", "Στρατιώτης", "Σκοπιά", 1, true⟩

def wDate : Date := ⟨2024, 1, 1⟩

def wDB : DB := ⟨[wSoldierA, wSoldierB], [], [], 1⟩

def wOldAssign : Assignment := ⟨1, 1, wDate, "Σκοπιά 00:00-02:00", true⟩

def wDB2 : DB := ⟨[wSoldierA, wSoldierB], [wOldAssign], [], 2⟩

/-! ### Claims -/

/-- C1: for every date string that parses, after a successful run every slot
whose candidate pool was nonempty when the loop reached it is covered by an
assignment for that date, no soldier id occurs twice among that date's
assignments, and every such assignment's shift label is one of the five fixed
slots. -/
theorem claim_C1 (db : DB) (str : String) (d : Date) (hp : parseDate str = some d) :
    (∀ sh ∈ slots,
        poolAtSlot (unavailable_soldier_ids db d) d (initState db) slots sh ≠ [] →
        ∃ a ∈ (generate_schedule_for_date db str).2.assignments,
          a.date = d ∧ a.shift_type = sh) ∧
    (((generate_schedule_for_date db str).2.assignments.filter
        (fun a => a.date == d)).map (fun a => a.soldier_id)).Nodup ∧
    (∀ a ∈ (generate_schedule_for_date db str).2.assignments, a.date = d →
        a.shift_type ∈ slots) := by
  refine ⟨?_, ?_, ?_⟩
  · intro sh hsh hpool
    obtain ⟨a, ha, hsh2, hd2⟩ :=
      poolAtSlot_filled (unavailable_soldier_ids db d) d slots (initState db) sh hsh hpool
    refine ⟨a, ?_, hd2, hsh2⟩
    rw [generate_some hp]
    exact List.mem_append_right _ ha
  · rw [result_date_filter hp, (inv_runResult db d).usedEq]
    exact (inv_runResult db d).usedNodup
  · intro a ha hd
    have hnew := result_mem_new hp ha hd
    obtain ⟨t, ht, hsub⟩ :=
      runSlots_newAssignments (unavailable_soldier_ids db d) d slots (initState db)
    have ht2 : (runResult db d).newAssignments = t := by
      rw [show (runResult db d).newAssignments =
        (runSlots (unavailable_soldier_ids db d) d (initState db) slots).newAssignments
        from rfl, ht]
      rfl
    rw [ht2] at hnew
    exact hsub.subset (List.mem_map_of_mem _ hnew)

theorem claim_C1_witness :
    (((generate_schedule_for_date wDB "2024-01-01").2.assignments.filter
      (fun a => a.date == wDate)).map (fun a => a.soldier_id)).Nodup :=
  (claim_C1 wDB "2024-01-01" wDate (by decide)).2.1

/-- C3: whenever a slot is processed with a nonempty candidate pool, the
chosen soldier has minimal `total_services` in the pool, ties are broken by
the smallest id, the chosen soldier's counter is incremented by one in the
working roster, and a fresh assignment with `confirmed = false` is appended
for them. -/
theorem claim_C3 (u : List Nat) (d : Date) (st : FillState) (sh : String)
    (best : Soldier)
    (hpick : pickMin (candidatesFor st.soldiers u st.already_assigned_today sh) =
      some best) :
    best ∈ candidatesFor st.soldiers u st.already_assigned_today sh ∧
    (∀ c ∈ candidatesFor st.soldiers u st.already_assigned_today sh,
        best.total_services ≤ c.total_services) ∧
    (∀ c ∈ candidatesFor st.soldiers u st.already_assigned_today sh,
        c.total_services = best.total_services → best.id ≤ c.id) ∧
    (fillSlot u d st sh).newAssignments =
      st.newAssignments ++ [mkAssign st.nextId best.id d sh] ∧
    (fillSlot u d st sh).soldiers = st.soldiers.map (fun s =>
      if s.id == best.id then { s with total_services := s.total_services + 1 }
      else s) := by
  refine ⟨pickMin_mem hpick, ?_, ?_, ?_, ?_⟩
  · intro c hc
    have := pickMin_not_lt hpick c hc
    rw [keyLt_false_iff] at this
    omega
  · intro c hc he
    have := pickMin_not_lt hpick c hc
    rw [keyLt_false_iff] at this
    omega
  · rw [fillSlot_of_some hpick]
    rfl
  · rw [fillSlot_of_some hpick]

theorem claim_C3_witness :
    (fillSlot [] wDate ⟨[wSoldierC, wSoldierB, wSoldierA], [], [], 1⟩
      "Σκοπιά 00:00-02:00").newAssignments =
      [mkAssign 1 2 wDate "Σκοπιά 00:00-02:00"] :=
  (claim_C3 [] wDate ⟨[wSoldierC, wSoldierB, wSoldierA], [], [], 1⟩
    "Σκοπιά 00:00-02:00" wSoldierB (by decide)).2.2.2.1

/-- C4: inside candidate-pool construction, for each of the day's slots a
soldier is in the pool only if their role contains every role keyword that the
slot's label contains; and for a label containing no known keyword the role
check is skipped entirely, leaving only the availability, unavailability and
already-used filters. -/
theorem claim_C4 (soldiers : List Soldier) (unavail used : List Nat) (sh : String)
    (s : Soldier) :
    (sh ∈ slots → s ∈ candidatesFor soldiers unavail used sh →
      ∀ k ∈ role_keywords, strContains sh k = true → strContains s.role k = true) ∧
    ((∀ k ∈ role_keywords, strContains sh k = false) →
      (s ∈ candidatesFor soldiers unavail used sh ↔
        s ∈ soldiers ∧ s.is_available = true ∧ s.id ∉ unavail ∧ s.id ∉ used)) := by
  constructor
  · intro hsh hc k hk hcont
    have hrole := (mem_candidatesFor.mp hc).2.2.2.2
    have hk2 : k = "Σκοπιά" ∨ k = "Θαλαμοφύλακας" ∨ k = "Κουζίνα" := by
      simpa [role_keywords] using hk
    have hsh2 : sh = "Σκοπιά 00:00-02:00" ∨ sh = "Σκοπιά 02:00-04:00" ∨
        sh = "Σκοπιά 04:00-06:00" ∨ sh = "Θαλαμοφύλακας Ημέρας" ∨
        sh = "Κουζίνα Πρωί" := by
      simpa [slots] using hsh
    rcases hsh2 with rfl | rfl | rfl | rfl | rfl <;>
      rcases hk2 with rfl | rfl | rfl <;>
      first
        | exact absurd hcont (by decide)
        | (rw [roleOk_keyword _ "Σκοπιά" (by decide)] at hrole; exact hrole)
        | (rw [roleOk_keyword _ "Θαλαμοφύλακας" (by decide)] at hrole; exact hrole)
        | (rw [roleOk_keyword _ "Κουζίνα" (by decide)] at hrole; exact hrole)
  · intro hnone
    have hfind : role_keywords.find? (fun k => strContains sh k) = none :=
      List.find?_eq_none.mpr (fun k hk => by simp [hnone k hk])
    have hro : roleOk sh s.role = true := by
      unfold roleOk
      rw [hfind]
    rw [mem_candidatesFor]
    simp [hro]

theorem claim_C4_witness :
    wSoldierA ∈ candidatesFor [wSoldierA] [] [] "Ειδική Υπηρεσία" :=
  ((claim_C4 [wSoldierA] [] [] "Ειδική Υπηρεσία" wSoldierA).2 (by decide)).mpr
    (by refine ⟨by decide, by decide, by decide, by decide⟩)

/-- C5: the generator fails exactly when the date string does not parse as a
`YYYY-MM-DD` date, failure leaves the store untouched, and every parsed date
(empty roster or not) yields success. -/
theorem claim_C5 (db : DB) (str : String) :
    ((generate_schedule_for_date db str).1 = true ↔ (parseDate str).isSome = true) ∧
    (parseDate str = none → (generate_schedule_for_date db str).2 = db) := by
  cases h : parseDate str with
  | none =>
    rw [generate_none h]
    simp
  | some d =>
    rw [generate_some h]
    simp

theorem claim_C5_witness :
    (generate_schedule_for_date wDB "2024-02-30").2 = wDB :=
  (claim_C5 wDB "2024-02-30").2 (by decide)

/-- C6: no assignment created by a run for the target date names a soldier
whose `is_available` flag is false or who has an unavailability record on that
date. -/
theorem claim_C6 (db : DB) (str : String) (d : Date) (hp : parseDate str = some d)
    (hnd : (db.soldiers.map (fun s => s.id)).Nodup) :
    ∀ a ∈ (generate_schedule_for_date db str).2.assignments, a.date = d →
      (∀ sol ∈ db.soldiers, sol.id = a.soldier_id → sol.is_available = true) ∧
      (∀ u ∈ db.unavailabilities, u.date = d → u.soldier_id ≠ a.soldier_id) := by
  intro a ha hd
  have hnew := result_mem_new hp ha hd
  constructor
  · intro sol hsol hid
    obtain ⟨s0, hs0, hs0id, hs0av⟩ := (inv_runResult db d).availEx a hnew
    have : sol = s0 := List.inj_on_of_nodup_map hnd hsol hs0 (by rw [hid, hs0id])
    rw [this]
    exact hs0av
  · intro u hu hud heq
    apply (inv_runResult db d).unavailOk a hnew
    rw [← heq]
    exact List.mem_map.mpr ⟨u, List.mem_filter.mpr ⟨hu, by simp [hud]⟩, rfl⟩

theorem claim_C6_witness : wSoldierB.is_available = true :=
  ((claim_C6 wDB "2024-01-01" wDate (by decide) (by decide))
      (mkAssign 1 2 wDate "Σκοπιά 00:00-02:00") (by decide) (by decide)).1
    wSoldierB (by decide) (by decide)

/-- C7: a run for date `d` changes nothing besides the assignment rows dated
`d` and the `total_services` of the soldiers it selected: assignments of other
dates, the unavailability table, and every soldier's id, name, rank, role and
`is_available` flag survive unchanged, as do the counters of unselected
soldiers. -/
theorem claim_C7 (db : DB) (str : String) (d : Date) (hp : parseDate str = some d) :
    ((generate_schedule_for_date db str).2.assignments.filter
        (fun a => !(a.date == d)) =
      db.assignments.filter (fun a => !(a.date == d))) ∧
    ((generate_schedule_for_date db str).2.unavailabilities = db.unavailabilities) ∧
    List.Forall₂ (fun s0 s1 =>
        s1.id = s0.id ∧ s1.name = s0.name ∧ s1.rank = s0.rank ∧ s1.role = s0.role ∧
        s1.is_available = s0.is_available ∧
        (s1.id ∉ ((generate_schedule_for_date db str).2.assignments.filter
            (fun a => a.date == d)).map (fun a => a.soldier_id) →
          s1.total_services = s0.total_services))
      db.soldiers (generate_schedule_for_date db str).2.soldiers := by
  refine ⟨?_, ?_, ?_⟩
  · simp only [generate_some hp]
    rw [List.filter_append, List.filter_filter]
    have h1 : (runResult db d).newAssignments.filter (fun a => !(a.date == d)) = [] := by
      rw [List.filter_eq_nil_iff]
      intro a ha
      have := (inv_runResult db d).dates a ha
      simp [this]
    have h2 : db.assignments.filter (fun a => !(a.date == d) && !(a.date == d)) =
        db.assignments.filter (fun a => !(a.date == d)) :=
      List.filter_congr (fun a _ => Bool.and_self _)
    rw [h1, h2, List.append_nil]
  · simp only [generate_some hp]
  · simp only [generate_some hp]
    rw [date_filter_append db d, (inv_runResult db d).usedEq]
    refine List.Forall₂.imp ?_ (inv_runResult db d).frame
    rintro s0 s1 ⟨hid, hname, hrank, hrole, hav, hserv⟩
    refine ⟨hid, hname, hrank, hrole, hav, ?_⟩
    intro hnot
    rw [hid] at hnot
    rw [hserv, if_neg hnot]

theorem claim_C7_witness :
    (generate_schedule_for_date wDB "2024-01-01").2.unavailabilities =
      wDB.unavailabilities :=
  (claim_C7 wDB "2024-01-01" wDate (by decide)).2.1

/-- C8: a run first removes every prior assignment of the target date and the
date's rows afterwards are exactly the run's fresh ones: with primary keys
below the autoincrement counter, no prior row for the date survives, so
regeneration replaces rather than accumulates. -/
theorem claim_C8 (db : DB) (str : String) (d : Date) (hp : parseDate str = some d)
    (hid : ∀ a ∈ db.assignments, a.id < db.next_assignment_id) :
    ((generate_schedule_for_date db str).2.assignments.filter (fun a => a.date == d) =
      (runResult db d).newAssignments) ∧
    (∀ a ∈ db.assignments, a.date = d →
      a ∉ (generate_schedule_for_date db str).2.assignments) := by
  refine ⟨result_date_filter hp, ?_⟩
  intro a ha hd hmem
  rw [generate_some hp] at hmem
  rcases List.mem_append.mp hmem with h1 | h1
  · have := (List.mem_filter.mp h1).2
    rw [hd] at this
    simp at this
  · have hge := (inv_runResult db d).idsGe a h1
    have hlt := hid a ha
    omega

theorem claim_C8_witness :
    wOldAssign ∉ (generate_schedule_for_date wDB2 "2024-01-01").2.assignments :=
  (claim_C8 wDB2 "2024-01-01" wDate (by decide) (by decide)).2
    wOldAssign (by decide) (by decide)

/-! ### Counting helpers for C10 -/

theorem zip_changed_count {used : List Nat} {l1 l2 : List Soldier}
    (h : List.Forall₂ (tracks used) l1 l2) :
    ((l1.zip l2).filter
        (fun p => !(p.1.total_services == p.2.total_services))).length =
      l1.countP (fun s => decide (s.id ∈ used)) := by
  induction h with
  | nil => rfl
  | @cons a b t1 t2 h1 h2 ih =>
    rw [List.zip_cons_cons, List.filter_cons, List.countP_cons]
    by_cases hm : a.id ∈ used
    · have hb : b.total_services = a.total_services + 1 := by
        rw [h1.2.2.2.2.2, if_pos hm]
      have hch : (!(a.total_services == b.total_services)) = true := by
        rw [hb]
        simp
      rw [if_pos hch, List.length_cons, ih]
      simp [hm]
    · have hb : b.total_services = a.total_services := by
        rw [h1.2.2.2.2.2, if_neg hm]
      have hch : ¬ ((!(a.total_services == b.total_services)) = true) := by
        rw [hb]
        simp
      rw [if_neg hch, ih]
      simp [hm]

theorem countP_mem_eq_length {ids used : List Nat} (hnd : ids.Nodup) (hu : used.Nodup)
    (hsub : ∀ u ∈ used, u ∈ ids) :
    ids.countP (fun i => decide (i ∈ used)) = used.length := by
  rw [List.countP_eq_length_filter]
  have hf1 : (ids.filter (fun i => decide (i ∈ used))).Nodup := hnd.filter _
  have hsub1 : (ids.filter (fun i => decide (i ∈ used))) ⊆ used := by
    intro x hx
    have := List.mem_filter.mp hx
    simpa using this.2
  have hsub2 : used ⊆ ids.filter (fun i => decide (i ∈ used)) := by
    intro x hx
    exact List.mem_filter.mpr ⟨hsub x hx, by simpa using hx⟩
  have h1 := (List.subperm_of_subset hf1 hsub1).length_le
  have h2 := (List.subperm_of_subset hu hsub2).length_le
  omega

/-- C10: after a successful run, each fixed slot label occurs on at most one
of the date's assignments, the date carries at most five assignments, and the
number of assignments equals the number of distinct soldiers whose
`total_services` counter the run incremented. -/
theorem claim_C10 (db : DB) (str : String) (d : Date) (hp : parseDate str = some d)
    (hnd : (db.soldiers.map (fun s => s.id)).Nodup) :
    ((((generate_schedule_for_date db str).2.assignments.filter
        (fun a => a.date == d)).map (fun a => a.shift_type)).Nodup) ∧
    ((generate_schedule_for_date db str).2.assignments.filter
        (fun a => a.date == d)).length ≤ 5 ∧
    ((generate_schedule_for_date db str).2.assignments.filter
        (fun a => a.date == d)).length =
      ((db.soldiers.zip (generate_schedule_for_date db str).2.soldiers).filter
        (fun p => !(p.1.total_services == p.2.total_services))).length := by
  obtain ⟨t, ht, hsub⟩ :=
    runSlots_newAssignments (unavailable_soldier_ids db d) d slots (initState db)
  have ht2 : (runResult db d).newAssignments = t := by
    rw [show (runResult db d).newAssignments =
      (runSlots (unavailable_soldier_ids db d) d (initState db) slots).newAssignments
      from rfl, ht]
    rfl
  refine ⟨?_, ?_, ?_⟩
  · simp only [generate_some hp]
    rw [date_filter_append db d, ht2]
    exact List.Nodup.sublist hsub (by decide)
  · simp only [generate_some hp]
    rw [date_filter_append db d, ht2]
    have hle := hsub.length_le
    have h5 : slots.length = 5 := rfl
    rw [List.length_map, h5] at hle
    exact hle
  · simp only [generate_some hp]
    rw [date_filter_append db d, ht2]
    have husedEq := (inv_runResult db d).usedEq
    rw [ht2] at husedEq
    have hlen1 : t.length = (runResult db d).already_assigned_today.length := by
      rw [← husedEq, List.length_map]
    have hzip := zip_changed_count (inv_runResult db d).frame
    have hcount := countP_mem_eq_length hnd (inv_runResult db d).usedNodup
      (inv_runResult db d).usedSub
    rw [List.countP_map] at hcount
    rw [hzip]
    rw [show (db.soldiers.countP
        (fun s => decide (s.id ∈ (runResult db d).already_assigned_today))) =
      (runResult db d).already_assigned_today.length from hcount]
    exact hlen1

theorem claim_C10_witness :
    ((generate_schedule_for_date wDB "2024-01-01").2.assignments.filter
        (fun a => a.date == wDate)).length ≤ 5 :=
  (claim_C10 wDB "2024-01-01" wDate (by decide) (by decide)).2.1

/-! ### Roster-order independence (C9) -/

theorem map_id_increment (l : List Soldier) (bid : Nat) :
    (l.map (fun s =>
      if s.id == bid then { s with total_services := s.total_services + 1 }
      else s)).map (fun s => s.id) = l.map (fun s => s.id) := by
  induction l with
  | nil => rfl
  | cons a t ih =>
    simp only [List.map_cons, ih]
    by_cases h : (a.id == bid) = true
    · rw [if_pos h]
    · rw [if_neg h]

theorem fillSlot_ids (u : List Nat) (d : Date) (st : FillState) (sh : String) :
    ((fillSlot u d st sh).soldiers).map (fun s => s.id) =
      st.soldiers.map (fun s => s.id) := by
  cases hp : pickMin (candidatesFor st.soldiers u st.already_assigned_today sh) with
  | none => rw [fillSlot_of_none hp]
  | some best =>
    rw [fillSlot_of_some hp]
    exact map_id_increment st.soldiers best.id

/-- Correspondence between two loop states run over rosters that are
permutations of each other: everything except the roster order coincides. -/
def StRel (st1 st2 : FillState) : Prop :=
  st1.soldiers.Perm st2.soldiers ∧
  st2.already_assigned_today = st1.already_assigned_today ∧
  st2.newAssignments = st1.newAssignments ∧
  st2.nextId = st1.nextId

theorem fillSlot_perm {st1 st2 : FillState} (u : List Nat) (d : Date) (sh : String)
    (hnd : (st1.soldiers.map (fun s => s.id)).Nodup) (hr : StRel st1 st2) :
    StRel (fillSlot u d st1 sh) (fillSlot u d st2 sh) := by
  obtain ⟨hperm, hused, hnew, hnext⟩ := hr
  have hcand : (candidatesFor st1.soldiers u st1.already_assigned_today sh).Perm
      (candidatesFor st2.soldiers u st2.already_assigned_today sh) := by
    rw [hused]
    exact hperm.filter _
  have hcnd : ((candidatesFor st1.soldiers u st1.already_assigned_today sh).map
      (fun s => s.id)).Nodup :=
    List.Nodup.sublist ((List.filter_sublist _).map _) hnd
  have hpick : pickMin (candidatesFor st1.soldiers u st1.already_assigned_today sh) =
      pickMin (candidatesFor st2.soldiers u st2.already_assigned_today sh) :=
    pickMin_perm hcand hcnd
  cases hp1 : pickMin (candidatesFor st1.soldiers u st1.already_assigned_today sh) with
  | none =>
    rw [fillSlot_of_none hp1, fillSlot_of_none (by rw [← hpick]; exact hp1)]
    exact ⟨hperm, hused, hnew, hnext⟩
  | some best =>
    rw [fillSlot_of_some hp1, fillSlot_of_some (by rw [← hpick]; exact hp1)]
    refine ⟨hperm.map _, ?_, ?_, ?_⟩
    · rw [hused]
    · rw [hnew, hnext]
    · rw [hnext]

theorem runSlots_perm (u : List Nat) (d : Date) (shifts : List String) :
    ∀ st1 st2 : FillState, (st1.soldiers.map (fun s => s.id)).Nodup → StRel st1 st2 →
      StRel (runSlots u d st1 shifts) (runSlots u d st2 shifts) := by
  induction shifts with
  | nil => exact fun st1 st2 _ hr => hr
  | cons sh rest ih =>
    intro st1 st2 hnd hr
    rw [runSlots_cons, runSlots_cons]
    refine ih _ _ ?_ (fillSlot_perm u d sh hnd hr)
    rw [fillSlot_ids]
    exact hnd

/-- C9: the generator's output does not depend on the order in which the
roster is listed: for rosters that are permutations of each other (same
unavailability table and counters), both runs succeed or fail together and
produce identical assignment tables, identical id counters, and rosters that
are again permutations of each other (so the same `total_services` updates). -/
theorem claim_C9 (db : DB) (soldiers2 : List Soldier) (str : String)
    (hperm : db.soldiers.Perm soldiers2)
    (hnd : (db.soldiers.map (fun s => s.id)).Nodup) :
    (generate_schedule_for_date db str).1 =
      (generate_schedule_for_date { db with soldiers := soldiers2 } str).1 ∧
    (generate_schedule_for_date db str).2.assignments =
      (generate_schedule_for_date { db with soldiers := soldiers2 } str).2.assignments ∧
    (generate_schedule_for_date db str).2.soldiers.Perm
      (generate_schedule_for_date { db with soldiers := soldiers2 } str).2.soldiers ∧
    (generate_schedule_for_date db str).2.next_assignment_id =
      (generate_schedule_for_date { db with soldiers := soldiers2 } str).2.next_assignment_id := by
  cases hp : parseDate str with
  | none =>
    rw [generate_none hp, generate_none hp]
    exact ⟨rfl, rfl, hperm, rfl⟩
  | some d =>
    have hstrel : StRel (initState db) (initState { db with soldiers := soldiers2 }) :=
      ⟨hperm, rfl, rfl, rfl⟩
    have hres := runSlots_perm (unavailable_soldier_ids db d) d slots _ _ hnd hstrel
    obtain ⟨hsp, hsu, hsn, hsx⟩ := hres
    have hsn2 : (runResult { db with soldiers := soldiers2 } d).newAssignments =
        (runResult db d).newAssignments := hsn
    have hsp2 : (runResult db d).soldiers.Perm
        (runResult { db with soldiers := soldiers2 } d).soldiers := hsp
    have hsx2 : (runResult { db with soldiers := soldiers2 } d).nextId =
        (runResult db d).nextId := hsx
    rw [generate_some hp, generate_some hp]
    refine ⟨rfl, ?_, hsp2, hsx2.symm⟩
    rw [hsn2]

theorem claim_C9_witness :
    (generate_schedule_for_date wDB "2024-01-01").2.assignments =
      (generate_schedule_for_date { wDB with soldiers := [wSoldierB, wSoldierA] }
        "2024-01-01").2.assignments :=
  (claim_C9 wDB [wSoldierB, wSoldierA] "2024-01-01" (by decide) (by decide)).2.1

/-! ### Session-trace lemmas (C2) -/

theorem opStep_commit (store : DB) (staged : List Op) :
    opStep (store, staged) Op.commit = (staged.foldl applyOp store, []) := rfl

theorem opStep_other (store : DB) (staged : List Op) (op : Op) (h : op ≠ Op.commit) :
    opStep (store, staged) op = (store, staged ++ [op]) := by
  cases op
  · rfl
  · rfl
  · rfl
  · exact absurd rfl h

theorem foldl_opStep_no_commit (ops : List Op) (h : ∀ op ∈ ops, op ≠ Op.commit) :
    ∀ (store : DB) (staged : List Op),
      ops.foldl opStep (store, staged) = (store, staged ++ ops) := by
  induction ops with
  | nil =>
    intro store staged
    simp
  | cons op rest ih =>
    intro store staged
    rw [List.foldl_cons, opStep_other store staged op (h op (List.mem_cons_self _ _))]
    rw [ih (fun o ho => h o (List.mem_cons_of_mem _ ho))]
    simp

theorem fillOps_cons (u : List Nat) (d : Date) (st : FillState) (sh : String)
    (rest : List String) :
    fillOps u d st (sh :: rest) =
      match pickMin (candidatesFor st.soldiers u st.already_assigned_today sh) with
      | none => fillOps u d (fillSlot u d st sh) rest
      | some best =>
        Op.addAssign (mkAssign st.nextId best.id d sh) ::
        Op.setServices best.id (best.total_services + 1) ::
        fillOps u d (fillSlot u d st sh) rest := rfl

theorem fillOps_cons_none {u : List Nat} {d : Date} {st : FillState} {sh : String}
    {rest : List String}
    (h : pickMin (candidatesFor st.soldiers u st.already_assigned_today sh) = none) :
    fillOps u d st (sh :: rest) = fillOps u d (fillSlot u d st sh) rest := by
  rw [fillOps_cons, h]

theorem fillOps_cons_some {u : List Nat} {d : Date} {st : FillState} {sh : String}
    {rest : List String} {best : Soldier}
    (h : pickMin (candidatesFor st.soldiers u st.already_assigned_today sh) =
      some best) :
    fillOps u d st (sh :: rest) =
      Op.addAssign (mkAssign st.nextId best.id d sh) ::
      Op.setServices best.id (best.total_services + 1) ::
      fillOps u d (fillSlot u d st sh) rest := by
  rw [fillOps_cons, h]

theorem fillOps_no_commit (u : List Nat) (d : Date) (shifts : List String) :
    ∀ (st : FillState), ∀ op ∈ fillOps u d st shifts, op ≠ Op.commit := by
  induction shifts with
  | nil =>
    intro st op hop
    cases hop
  | cons sh rest ih =>
    intro st op hop
    cases hpick : pickMin (candidatesFor st.soldiers u st.already_assigned_today sh) with
    | none =>
      rw [fillOps_cons_none hpick] at hop
      exact ih _ op hop
    | some best =>
      rw [fillOps_cons_some hpick] at hop
      rcases List.mem_cons.mp hop with rfl | hop2
      · intro hcon
        cases hcon
      · rcases List.mem_cons.mp hop2 with rfl | hop3
        · intro hcon
          cases hcon
        · exact ih _ op hop3

theorem foldl_applyOp_del (ids : List Nat) :
    ∀ (store : DB),
      (ids.map Op.delAssign).foldl applyOp store =
        { store with assignments :=
            store.assignments.filter (fun a => !(ids.contains a.id)) } := by
  induction ids with
  | nil =>
    intro store
    rw [List.map_nil, List.foldl_nil]
    have h1 : store.assignments.filter (fun a => !(([] : List Nat).contains a.id)) =
        store.assignments := List.filter_eq_self.mpr (fun a _ => rfl)
    rw [h1]
  | cons i rest ih =>
    intro store
    rw [List.map_cons, List.foldl_cons]
    have happ : applyOp store (Op.delAssign i) = { store with assignments := store.assignments.filter (fun a => !(a.id == i)) } := rfl
    rw [happ, ih]
    simp only [List.filter_filter]
    congr 1
    apply List.filter_congr
    intro a _
    cases h1 : (a.id == i) <;> cases h2 : rest.contains a.id <;>
      simp_all [List.contains_cons]

/-- Committing the early deletion leaves the store with exactly the target
date's assignments removed (assignment primary keys being unique). -/
theorem del_existing (db : DB) (d : Date)
    (hnd : (db.assignments.map (fun a => a.id)).Nodup) :
    (((db.assignments.filter (fun a => a.date == d)).map
        (fun a => Op.delAssign a.id)).foldl applyOp db) =
      { db with assignments := db.assignments.filter (fun a => !(a.date == d)) } := by
  have hmm : (db.assignments.filter (fun a => a.date == d)).map
      (fun a => Op.delAssign a.id) =
      ((db.assignments.filter (fun a => a.date == d)).map (fun a => a.id)).map
        Op.delAssign := by
    rw [List.map_map]
    rfl
  rw [hmm, foldl_applyOp_del]
  congr 1
  apply List.filter_congr
  intro a ha
  have key : ((db.assignments.filter (fun a => a.date == d)).map
      (fun a => a.id)).contains a.id = (a.date == d) := by
    cases hd : (a.date == d) with
    | true =>
      have hmem : a ∈ db.assignments.filter (fun a => a.date == d) :=
        List.mem_filter.mpr ⟨ha, hd⟩
      simp only [List.elem_eq_mem, decide_eq_true_eq]
      exact List.mem_map.mpr ⟨a, hmem, rfl⟩
    | false =>
      simp only [List.elem_eq_mem, decide_eq_false_iff_not]
      rintro hmem
      obtain ⟨e, he, heid⟩ := List.mem_map.mp hmem
      have he2 := List.mem_filter.mp he
      have : e = a := List.inj_on_of_nodup_map hnd he2.1 ha heid
      rw [this] at he2
      rw [he2.2] at hd
      cases hd
  rw [key]

theorem generateOps_none {db : DB} {str : String} (h : parseDate str = none) :
    generateOps db str = [] := by
  unfold generateOps
  rw [h]

theorem generateOps_some {db : DB} {str : String} {d : Date}
    (h : parseDate str = some d) :
    generateOps db str =
      (if (db.assignments.filter (fun a => a.date == d)).isEmpty then []
       else (db.assignments.filter (fun a => a.date == d)).map
              (fun a => Op.delAssign a.id) ++ [Op.commit]) ++
      fillOps (unavailable_soldier_ids db d) d (initState db) slots ++ [Op.commit] := by
  unfold generateOps
  rw [h]

/-- A store holding one assignment on the target date and nothing else. -/
def cDB : DB := ⟨[], [wOldAssign], [], 2⟩

/-- C2 counterexample: when prior assignments exist for the date, their
deletion is committed (`app.py` line 90) before the run's final commit, so a
persistence failure after the second operation of the trace (the deletion
commit) leaves a store that differs from the pre-run store — the deletions
survive even though the run never completed. -/
theorem claim_C2_counterexample :
    2 < (generateOps cDB "2024-01-01").length ∧
    runFailAfter cDB "2024-01-01" 2 ≠ cDB := by
  constructor
  · decide
  · decide

/-- C2 (amended): a run's persistence effects form at most two transactional
units rather than one.  The new assignments and counter increments commit
together at the end, but when prior assignments exist for the target date
their deletion commits separately first; a failure after any proper prefix of
the operation trace therefore leaves the store either exactly as before the
run or with only the target date's prior assignments deleted. -/
theorem claim_C2_amended (db : DB) (str : String) (k : Nat)
    (hnd : (db.assignments.map (fun a => a.id)).Nodup)
    (hk : k < (generateOps db str).length) :
    runFailAfter db str k = db ∨ runFailAfter db str k = deleteApplied db str := by
  cases hp : parseDate str with
  | none =>
    rw [generateOps_none hp] at hk
    exact absurd hk (by simp)
  | some d =>
    unfold runFailAfter runSession
    rw [generateOps_some hp] at hk ⊢
    have hdel : deleteApplied db str = { db with assignments := db.assignments.filter (fun a => !(a.date == d)) } := by
      unfold deleteApplied
      rw [hp]
    rw [hdel]
    by_cases hE : (db.assignments.filter (fun a => a.date == d)).isEmpty
    · rw [if_pos hE] at hk ⊢
      rw [List.nil_append] at hk ⊢
      have hkF : k ≤ (fillOps (unavailable_soldier_ids db d) d (initState db) slots).length := by
        rw [List.length_append] at hk
        simp only [List.length_singleton] at hk
        omega
      rw [List.take_append_eq_append_take]
      rw [show k - (fillOps (unavailable_soldier_ids db d) d (initState db) slots).length = 0 from by omega]
      rw [List.take_zero, List.append_nil]
      left
      rw [foldl_opStep_no_commit _
        (fun op hop => fillOps_no_commit _ _ _ _ op (List.mem_of_mem_take hop)) db []]
    · rw [if_neg hE] at hk ⊢
      set D := (db.assignments.filter (fun a => a.date == d)).map
        (fun a => Op.delAssign a.id) with hD
      set F := fillOps (unavailable_soldier_ids db d) d (initState db) slots with hF
      have hDnc : ∀ op ∈ D, op ≠ Op.commit := by
        intro op hop
        rw [hD] at hop
        obtain ⟨a, _, ha⟩ := List.mem_map.mp hop
        rw [← ha]
        intro hcon
        cases hcon
      have hFnc : ∀ op ∈ F, op ≠ Op.commit :=
        fun op hop => fillOps_no_commit _ _ _ _ op hop
      have hlen : k < D.length + 1 + F.length + 1 := by
        simp only [List.length_append, List.length_singleton] at hk
        omega
      by_cases hks : k ≤ D.length
      · left
        have ht1 : (((D ++ [Op.commit]) ++ F) ++ [Op.commit]).take k = D.take k := by
          rw [List.take_append_eq_append_take, List.take_append_eq_append_take,
            List.take_append_eq_append_take]
          have e1 : k - ((D ++ [Op.commit]) ++ F).length = 0 := by
            simp only [List.length_append, List.length_singleton]
            omega
          have e2 : k - (D ++ [Op.commit]).length = 0 := by
            simp only [List.length_append, List.length_singleton]
            omega
          have e3 : k - D.length = 0 := by omega
          rw [e1, e2, e3]
          simp
        rw [ht1]
        rw [foldl_opStep_no_commit (D.take k)
          (fun op hop => hDnc op (List.mem_of_mem_take hop)) db []]
      · right
        have ht2 : (((D ++ [Op.commit]) ++ F) ++ [Op.commit]).take k =
            (D ++ [Op.commit]) ++ F.take (k - (D ++ [Op.commit]).length) := by
          rw [List.take_append_eq_append_take, List.take_append_eq_append_take]
          have e1 : k - ((D ++ [Op.commit]) ++ F).length = 0 := by
            simp only [List.length_append, List.length_singleton]
            omega
          have e2 : (D ++ [Op.commit]).take k = D ++ [Op.commit] :=
            List.take_of_length_le (by
              simp only [List.length_append, List.length_singleton]
              omega)
          rw [e1, e2]
          simp
        rw [ht2, List.foldl_append, List.foldl_append]
        rw [foldl_opStep_no_commit D hDnc db []]
        rw [show ([] : List Op) ++ D = D from List.nil_append D]
        rw [show List.foldl opStep ((db, D) : DB × List Op) [Op.commit] =
          (D.foldl applyOp db, []) from rfl]
        rw [foldl_opStep_no_commit (F.take (k - (D ++ [Op.commit]).length))
          (fun op hop => hFnc op (List.mem_of_mem_take hop)) _ _]
        show D.foldl applyOp db = _
        rw [hD]
        exact del_existing db d hnd

theorem claim_C2_amended_witness :
    runFailAfter cDB "2024-01-01" 2 = cDB ∨
      runFailAfter cDB "2024-01-01" 2 = deleteApplied cDB "2024-01-01" :=
  claim_C2_amended cDB "2024-01-01" 2 (by decide) (by decide)

end DutyPlanner
